import Mathlib

/-!
Verification of the delimiter-matching and tree-rewrite engine of the
auto-render addon (`src/addons/auto-render.js`).

Strings are modelled as `List Char` (`Str`).  JavaScript's `text.slice(a, b)`
is `listSlice`, `hay.indexOf(needle, start)` is `indexOfFrom`.  The index
loops of `findEndOfMath` and `indexOf` are modelled by structural recursion
on the remaining suffix of the string, carrying the absolute index along;
the `while (!done)` loop of `splitAtDelimiters` is modelled with explicit
fuel, where `none` models non-termination of the JavaScript loop (the fuel
used is provably sufficient whenever the left delimiter is non-empty).
The DOM is an inductive tree of element / text / other nodes; the external
LaTeX renderer (`latexToMarkup`) and the RegExp compiler are parameters
(`Str → Mathstyle → Option Str`, resp. `Str → Option (Str → Bool)`) whose
`none` result models a thrown exception.
-/

/-- Strings as lists of characters. -/
abbrev Str := List Char

/-- JavaScript `text.slice(a, b)` for `0 ≤ a` (clamped at the end of the
string; `a > b` yields the empty string). -/
def listSlice (xs : Str) (a b : Nat) : Str :=
  (xs.drop a).take (b - a)

/-- The scan loop of JavaScript `hay.indexOf(needle, start)`, recursing on
the suffix `hay.drop index`: succeed at the first index whose suffix starts
with `needle` (`suffix.take needle.length = needle` models
`hay.slice(index, index + needle.length) === needle`). -/
def indexOfFromGo (needle : Str) : Str → Nat → Option Nat
  | [], index => if needle = [] then some index else none
  | c :: rest, index =>
    if (c :: rest).take needle.length = needle then some index
    else indexOfFromGo needle rest (index + 1)

/-- JavaScript `hay.indexOf(needle, start)`: the first position `≥ start`
where `needle` occurs in `hay` (for `start > hay.length`, JavaScript clamps
the start of the search to `hay.length`, which can only match the empty
needle). -/
def indexOfFrom (needle hay : Str) (start : Nat) : Option Nat :=
  if start > hay.length then (if needle = [] then some hay.length else none)
  else indexOfFromGo needle (hay.drop start) start

/-- Model of `nodeName.toLowerCase()` on a tag name. -/
def strToLower (s : Str) : Str := s.map Char.toLower

/-- The ASCII part of JavaScript's regex `\s` character class (space, tab,
line feed, vertical tab, form feed, carriage return), plus no-break space. -/
def isJsWhitespace (c : Char) : Bool :=
  c = ' ' || c = '\t' || c = '\n' || c = '\x0b' || c = '\x0c' || c = '\r' || c = ' '

/-- The test `text.match(/^\s*\\begin/)` of `scanText`: leading whitespace
followed by the literal characters `\begin`. -/
def matchesEnvStart (text : Str) : Bool :=
  ("\\begin".toList).isPrefixOf (text.dropWhile isJsWhitespace)

/-- The `mathstyle` tag attached to math segments: `'textstyle'` for inline
delimiters, `'displaystyle'` for display delimiters. -/
inductive Mathstyle where
  | textstyle
  | displaystyle
deriving DecidableEq, Repr

/-- A segment produced by the segmenter: either `{type: 'text', data}` or
`{type: 'math', data, rawData, mathstyle}`. -/
inductive Segment where
  | text (data : Str)
  | math (data : Str) (rawData : Str) (mathstyle : Mathstyle)
deriving DecidableEq, Repr

/-- The delimiter-inclusive raw form of a segment: `rawData` for math
segments, `data` for text segments. -/
def Segment.raw : Segment → Str
  | .text d => d
  | .math _ r _ => r

/-- Concatenation of the raw forms of a list of segments. -/
def rawConcat (segs : List Segment) : Str :=
  (segs.map Segment.raw).flatten

/-- The scanning loop of `findEndOfMath` (auto-render.js lines 12-27),
recursing on the suffix `text.drop index`: at each visited position, if the
brace level is `≤ 0` and the delimiter occurs there, return that position;
otherwise a backslash skips the next character, `{` increments and `}`
decrements the brace level.  (`suffix.take delimiter.length = delimiter`
models `text.slice(index, index + delimLength) === delimiter`; a backslash
as the last character runs the index past the end of the string.) -/
def findEndOfMathGo (delimiter : Str) : Str → Nat → Int → Option Nat
  | [], _, _ => none
  | c :: rest, index, braceLevel =>
    if braceLevel ≤ 0 ∧ (c :: rest).take delimiter.length = delimiter then
      some index
    else if c = '\\' then
      match rest with
      | [] => none
      | _ :: rest2 => findEndOfMathGo delimiter rest2 (index + 2) braceLevel
    else if c = '{' then findEndOfMathGo delimiter rest (index + 1) (braceLevel + 1)
    else if c = '}' then findEndOfMathGo delimiter rest (index + 1) (braceLevel - 1)
    else findEndOfMathGo delimiter rest (index + 1) braceLevel

/-- Model of `findEndOfMath(delimiter, text, startIndex)` (auto-render.js lines 4-30);
`none` models the return value `-1`. -/
def findEndOfMath (delimiter text : Str) (startIndex : Nat) : Option Nat :=
  findEndOfMathGo delimiter (text.drop startIndex) startIndex 0

/-- The sequence of `(position, brace depth)` pairs visited by the scanner
described in the specification: scan character by character, a backslash
consumes and skips the immediately following character, `{` increments the
depth, `}` decrements it.  This is the delimiter-independent scan trace
used to state the contract of `findEndOfMath`. -/
def scanSeq : Str → Nat → Int → List (Nat × Int)
  | [], _, _ => []
  | c :: rest, index, depth =>
    if c = '\\' then
      (index, depth) ::
        (match rest with
         | [] => []
         | _ :: rest2 => scanSeq rest2 (index + 2) depth)
    else if c = '{' then (index, depth) :: scanSeq rest (index + 1) (depth + 1)
    else if c = '}' then (index, depth) :: scanSeq rest (index + 1) (depth - 1)
    else (index, depth) :: scanSeq rest (index + 1) depth

/-- A scan position qualifies for `findEndOfMath` when its depth is `≤ 0`
and the right-delimiter token occurs at it. -/
def scanPred (delimiter text : Str) (p : Nat × Int) : Bool :=
  decide (p.2 ≤ 0 ∧ listSlice text p.1 (p.1 + delimiter.length) = delimiter)

/-- The alternating left/right seek loop of `splitAtDelimiters`
(auto-render.js lines 43-97) for one text run, starting at `curr`.  Each
step finds the next left delimiter (emitting the text before it), then the
matching right delimiter via `findEndOfMath` (emitting one math segment
whose `data` lies strictly between the delimiters and whose `rawData`
includes both), and continues after the right delimiter; if the left search
fails the remainder of the run is one final text segment, and if the right
search fails the text before the unmatched left delimiter and the remainder
from the left delimiter to the end are two final text segments. -/
def splitLoop (text leftDelim rightDelim : Str) (mathstyle : Mathstyle) :
    Nat → Nat → Option (List Segment)
  | 0, _ => none
  | fuel + 1, curr =>
    match indexOfFrom leftDelim text curr with
    | none => some [.text (text.drop curr)]
    | some l =>
      match findEndOfMath rightDelim text (l + leftDelim.length) with
      | none => some [.text (listSlice text curr l), .text (text.drop l)]
      | some r =>
        (splitLoop text leftDelim rightDelim mathstyle fuel (r + rightDelim.length)).map
          fun rest =>
            .text (listSlice text curr l) ::
            .math (listSlice text (l + leftDelim.length) r)
                  (listSlice text l (r + rightDelim.length)) mathstyle :: rest

/-- One text run split at one delimiter pair: the loop of
`splitAtDelimiters` run from position 0 with sufficient fuel. -/
def splitTextRun (text leftDelim rightDelim : Str) (mathstyle : Mathstyle) :
    Option (List Segment) :=
  splitLoop text leftDelim rightDelim mathstyle (text.length + 1) 0

/-- Model of `splitAtDelimiters(startData, leftDelim, rightDelim, mathstyle)`
(auto-render.js lines 32-104): text segments are re-split, math segments
pass through unchanged. -/
def splitAtDelimiters (startData : List Segment) (leftDelim rightDelim : Str)
    (mathstyle : Mathstyle) : Option (List Segment) :=
  match startData with
  | [] => some []
  | seg :: rest =>
    let head := match seg with
      | .text t => splitTextRun t leftDelim rightDelim mathstyle
      | m => some [m]
    match head, splitAtDelimiters rest leftDelim rightDelim mathstyle with
    | some h, some r => some (h ++ r)
    | _, _ => none

/-- The configured delimiter pairs: `delimiters.inline` and
`delimiters.display`. -/
structure Delimiters where
  inline : List (Str × Str)
  display : List (Str × Str)
deriving DecidableEq, Repr

/-- One `for` loop of `splitWithDelimiters`: apply `splitAtDelimiters`
successively for each pair of the list, threading the segment list. -/
def runPasses (mathstyle : Mathstyle) : List (Str × Str) → List Segment → Option (List Segment)
  | [], data => some data
  | p :: ps, data =>
    match splitAtDelimiters data p.1 p.2 mathstyle with
    | some d => runPasses mathstyle ps d
    | none => none

/-- Model of `splitWithDelimiters(text, delimiters)` (auto-render.js lines 106-120):
all inline passes in order, then all display passes in order, starting from
the single text segment holding the whole run. -/
def splitWithDelimiters (text : Str) (delimiters : Delimiters) : Option (List Segment) :=
  match runPasses .textstyle delimiters.inline [.text text] with
  | some d => runPasses .displaystyle delimiters.display d
  | none => none

example : splitWithDelimiters "a \\( x \\) b".toList ⟨[("\\(".toList, "\\)".toList)], []⟩ =
    some [.text "a ".toList, .math " x ".toList "\\( x \\)".toList .textstyle, .text " b".toList] := by
  decide

example : splitWithDelimiters "a \\( x b".toList ⟨[("\\(".toList, "\\)".toList)], []⟩ =
    some [.text "a ".toList, .text "\\( x b".toList] := by
  decide

example : findEndOfMath ")".toList "\x7b ) x".toList 0 = none := by decide

example : splitWithDelimiters "a $$ x $$ $$ y $$ b".toList ⟨[], [("$$".toList, "$$".toList)]⟩ =
    some [.text "a ".toList, .math " x ".toList "$$ x $$".toList .displaystyle,
      .text " ".toList, .math " y ".toList "$$ y $$".toList .displaystyle,
      .text " b".toList] := by
  decide

/-- A node of the content tree: an element node (`nodeType === 1`, with tag
name, `className` attribute and ordered children), a text node
(`nodeType === 3`, with its `textContent`), or any other node kind. -/
inductive DomNode where
  | element (tag : Str) (className : Str) (children : List DomNode)
  | text (content : Str)
  | other

/-- The `TeX` sub-object of the options. -/
structure TeXOptions where
  disabled : Bool
  processEnvironments : Bool
  delimiters : Delimiters

/-- The options as used during a traversal, after the two class patterns
have been compiled; a compiled RegExp is modelled by its `test` function.  -/
structure ResolvedOptions where
  skipTags : List Str
  ignoreClassPattern : Str → Bool
  processClassPattern : Str → Bool
  TeX : TeXOptions

/-- The `shouldRender` expression of `scanElement` (auto-render.js lines
172-175): process-class match, or neither a skipped tag (compared in lower
case) nor an ignore-class match. -/
def shouldRender (options : ResolvedOptions) (tagName className : Str) : Bool :=
  options.processClassPattern className ||
    !(options.skipTags.contains (strToLower tagName) ||
        options.ignoreClassPattern className)

/-- The tag of the wrapper elements created by `document.createElement('span')`. -/
def spanTag : Str := "span".toList

/-- The node built for one segment in the main loop of `scanText`
(auto-render.js lines 140-156): a text node for a text segment; for a math
segment, a span holding the renderer's markup, or — when the renderer
throws — a text node holding the segment's delimiter-inclusive `rawData`. -/
def segToNode (latexToMarkup : Str → Mathstyle → Option Str) : Segment → DomNode
  | .text d => .text d
  | .math d raw ms =>
    match latexToMarkup d ms with
    | some markup => .element spanTag [] [.text markup]
    | none => .text raw

/-- Model of `scanText(text, options, latexToMarkup)` (auto-render.js lines 122-160),
returning the child list of the built fragment.  If `processEnvironments`
is set and the text starts (after whitespace) with `\begin`, the whole run
is rendered in display style inside a span appended before the renderer is
invoked — on failure the span stays empty and the original text follows it
as a text node.  Otherwise the run is segmented and each segment becomes
one node.  `none` propagates non-termination of the segmenter. -/
def scanText (text : Str) (options : ResolvedOptions)
    (latexToMarkup : Str → Mathstyle → Option Str) : Option (List DomNode) :=
  if options.TeX.processEnvironments && matchesEnvStart text then
    match latexToMarkup text .displaystyle with
    | some markup => some [.element spanTag [] [.text markup]]
    | none => some [.element spanTag [] [], .text text]
  else
    (splitWithDelimiters text options.TeX.delimiters).map (List.map (segToNode latexToMarkup))

/-- The child loop of `scanElement` (auto-render.js lines 163-185) on the
ordered child list.  A text child is replaced in place by the fragment
built by `scanText`, and the loop index is advanced past the spliced-in
nodes (`i += frag.childNodes.length - 1`), so the loop continues at the
next original sibling; an element child is recursed into exactly when
`shouldRender` holds, and is kept — subtree untouched — otherwise; any
other node kind is kept as is. -/
def scanChildren (options : ResolvedOptions) (latexToMarkup : Str → Mathstyle → Option Str) :
    List DomNode → Option (List DomNode)
  | [] => some []
  | DomNode.text t :: rest =>
    match scanText t options latexToMarkup, scanChildren options latexToMarkup rest with
    | some frag, some tail => some (frag ++ tail)
    | _, _ => none
  | DomNode.element tag cls ch :: rest =>
    if shouldRender options tag cls then
      match scanChildren options latexToMarkup ch, scanChildren options latexToMarkup rest with
      | some ch', some tail => some (DomNode.element tag cls ch' :: tail)
      | _, _ => none
    else
      match scanChildren options latexToMarkup rest with
      | some tail => some (DomNode.element tag cls ch :: tail)
      | none => none
  | DomNode.other :: rest =>
    match scanChildren options latexToMarkup rest with
    | some tail => some (DomNode.other :: tail)
    | none => none

/-- Model of `scanElement(elem, options, latexToMarkup)` (auto-render.js lines
162-186): rewrite the children of a node in place; a non-element node has
no children and is left untouched. -/
def scanElement (elem : DomNode) (options : ResolvedOptions)
    (latexToMarkup : Str → Mathstyle → Option Str) : Option DomNode :=
  match elem with
  | .element tag cls children =>
    (scanChildren options latexToMarkup children).map (DomNode.element tag cls)
  | n => some n

/-- The caller-supplied options object: absent fields fall back to the
defaults via `Object.assign({}, defaultOptions, options)`, which merges
shallowly, field by field (a caller-supplied `TeX` object replaces the
default `TeX` object wholesale). -/
structure CallerOptions where
  skipTags : Option (List Str)
  ignoreClass : Option Str
  processClass : Option Str
  TeX : Option TeXOptions

/-- The merged options before the class patterns are compiled. -/
structure RawOptions where
  skipTags : List Str
  ignoreClass : Str
  processClass : Str
  TeX : TeXOptions

/-- Default value `defaultOptions.skipTags` (auto-render.js lines 190-191). -/
def defaultSkipTags : List Str :=
  ["script".toList, "noscript".toList, "style".toList, "textarea".toList,
   "pre".toList, "code".toList, "annotation".toList, "annotation-xml".toList]

/-- Default value `defaultOptions.TeX` (auto-render.js lines 200-207). -/
def defaultTeX : TeXOptions :=
  { disabled := false
    processEnvironments := true
    delimiters :=
      { inline := [("\\(".toList, "\\)".toList)]
        display := [("$$".toList, "$$".toList), ("\\[".toList, "\\]".toList)] } }

/-- Model of `Object.assign({}, defaultOptions, options)` (auto-render.js line 216):
each top-level field of the caller's options replaces the corresponding
default wholesale. -/
def mergeOptions (caller : CallerOptions) : RawOptions :=
  { skipTags := caller.skipTags.getD defaultSkipTags
    ignoreClass := caller.ignoreClass.getD "tex2jax_ignore".toList
    processClass := caller.processClass.getD "tex2jax_process".toList
    TeX := caller.TeX.getD defaultTeX }

/-- The document, as far as the entry point uses it: its `body` node and
the `getElementById` lookup. -/
structure Document where
  body : DomNode
  byId : Str → Option DomNode

/-- The `elem` argument of `renderMathInElement`: absent (or `null`), an
actual node, or a string identifier. -/
inductive RootArg where
  | absent
  | node (n : DomNode)
  | ident (s : Str)

/-- The root resolution at the top of `renderMathInElement` (auto-render.js
lines 211-214): a falsy argument (absent, `null`, or the empty string)
returns immediately (`none`); a non-empty string is looked up with
`document.getElementById`, and if the lookup fails — or after it, the
value is still falsy — the root falls back to `document.body`. -/
def resolveRoot (doc : Document) : RootArg → Option DomNode
  | .absent => none
  | .node n => some n
  | .ident s =>
    if s = [] then none
    else
      match doc.byId s with
      | some n => some n
      | none => some doc.body

/-- The observable outcome of one `renderMathInElement` call: an exception
from `new RegExp` (`configError`), an early return with nothing visited
(`noop`), a completed traversal with the rewritten root (`done`), or a
traversal that never finishes (`hung`). -/
inductive RenderOutcome where
  | configError
  | noop
  | done (root : DomNode)
  | hung

/-- Model of `renderMathInElement(elem, options, latexToMarkup)` (auto-render.js
lines 210-221): resolve the root (returning early on a falsy argument),
merge the options onto the defaults, compile the two class patterns
(`new RegExp` may throw — modelled by `compileRegExp` returning `none`),
then scan the root element. -/
def renderMathInElement (doc : Document) (elem : RootArg) (options : CallerOptions)
    (compileRegExp : Str → Option (Str → Bool))
    (latexToMarkup : Str → Mathstyle → Option Str) : RenderOutcome :=
  match resolveRoot doc elem with
  | none => .noop
  | some root =>
    let merged := mergeOptions options
    match compileRegExp merged.ignoreClass, compileRegExp merged.processClass with
    | some ignorePattern, some processPattern =>
      let resolved : ResolvedOptions :=
        { skipTags := merged.skipTags
          ignoreClassPattern := ignorePattern
          processClassPattern := processPattern
          TeX := merged.TeX }
      match scanElement root resolved latexToMarkup with
      | some newRoot => .done newRoot
      | none => .hung
    | _, _ => .configError

/-- A compiled literal (metacharacter-free) pattern tests by substring
containment; used to instantiate the RegExp-compiler parameter at the
default patterns in concrete examples. -/
def literalPattern (pat : Str) : Str → Bool :=
  fun className => (indexOfFrom pat className 0).isSome

/-- A RegExp compiler that succeeds on every pattern, compiling it as a
literal substring test. -/
def literalCompile : Str → Option (Str → Bool) :=
  fun pat => some (literalPattern pat)


theorem listSlice_append_drop (xs : Str) (a b : Nat) (h : a ≤ b) :
    listSlice xs a b ++ xs.drop b = xs.drop a := by
  unfold listSlice
  have h2 : (xs.drop a).drop (b - a) = xs.drop b := by
    rw [List.drop_drop]; congr 1; omega
  rw [← h2, List.take_append_drop]

theorem rawConcat_append (a b : List Segment) :
    rawConcat (a ++ b) = rawConcat a ++ rawConcat b := by
  simp [rawConcat]

theorem indexOfFromGo_ge (needle : Str) :
    ∀ (suffix : Str) (index l : Nat), indexOfFromGo needle suffix index = some l → index ≤ l := by
  intro suffix
  induction suffix with
  | nil =>
    intro index l h
    by_cases hn : needle = []
    · simp [indexOfFromGo, hn] at h
      omega
    · simp [indexOfFromGo, hn] at h
  | cons c rest ih =>
    intro index l h
    rw [indexOfFromGo] at h
    split at h
    · simp at h; omega
    · have := ih (index + 1) l h
      omega

theorem indexOfFrom_ge (needle hay : Str) (start l : Nat)
    (hs : start ≤ hay.length) (h : indexOfFrom needle hay start = some l) : start ≤ l := by
  rw [indexOfFrom] at h
  split at h
  · omega
  · exact indexOfFromGo_ge needle _ start l h

theorem take_length_le {l d : Str} {n : Nat} (h : l.take n = d) : d.length ≤ l.length := by
  subst h; rw [List.length_take]; exact Nat.min_le_right n _

theorem findEndOfMathGo_spec (delimiter : Str) (suffix : Str) (index : Nat) (b : Int) :
    ∀ r : Nat, findEndOfMathGo delimiter suffix index b = some r →
      index ≤ r ∧ r - index + delimiter.length ≤ suffix.length ∧
        (suffix.drop (r - index)).take delimiter.length = delimiter := by
  induction suffix, index, b using findEndOfMathGo.induct delimiter with
  | case1 index b =>
    intro r h
    simp [findEndOfMathGo] at h
  | case2 c rest index b hcond =>
    intro r h
    rw [findEndOfMathGo.eq_def] at h
    simp only [if_pos hcond] at h
    obtain ⟨_, htake⟩ := hcond
    have hr : index = r := by simpa using h
    subst hr
    refine ⟨le_refl _, ?_, ?_⟩
    · have := take_length_le htake
      simp only [List.length_cons] at this ⊢
      omega
    · simpa using htake
  | case3 index b hcond =>
    intro r h
    simp only [findEndOfMathGo, if_neg hcond] at h
    simp at h
  | case4 index b head rest2 hcond ih =>
    intro r h
    simp only [findEndOfMathGo, if_neg hcond] at h
    simp at h
    obtain ⟨h1, h2, h3⟩ := ih r h
    refine ⟨by omega, ?_, ?_⟩
    · simp only [List.length_cons]
      omega
    · have heq : r - index = (r - (index + 2)) + 1 + 1 := by omega
      rw [heq, List.drop_succ_cons, List.drop_succ_cons]
      exact h3
  | case5 rest index b hcond hne ih =>
    intro r h
    rw [findEndOfMathGo.eq_def] at h
    simp only [if_neg hcond] at h
    simp at h
    obtain ⟨h1, h2, h3⟩ := ih r h
    refine ⟨by omega, by simp only [List.length_cons]; omega, ?_⟩
    have heq : r - index = (r - (index + 1)) + 1 := by omega
    rw [heq, List.drop_succ_cons]
    exact h3
  | case6 rest index b hcond hne hne2 ih =>
    intro r h
    rw [findEndOfMathGo.eq_def] at h
    simp only [if_neg hcond] at h
    simp at h
    obtain ⟨h1, h2, h3⟩ := ih r h
    refine ⟨by omega, by simp only [List.length_cons]; omega, ?_⟩
    have heq : r - index = (r - (index + 1)) + 1 := by omega
    rw [heq, List.drop_succ_cons]
    exact h3
  | case7 c rest index b hcond hne hne2 hne3 ih =>
    intro r h
    rw [findEndOfMathGo.eq_def] at h
    simp only [if_neg hcond, if_neg hne, if_neg hne2, if_neg hne3] at h
    obtain ⟨h1, h2, h3⟩ := ih r h
    refine ⟨by omega, by simp only [List.length_cons]; omega, ?_⟩
    have heq : r - index = (r - (index + 1)) + 1 := by omega
    rw [heq, List.drop_succ_cons]
    exact h3

theorem findEndOfMath_spec (delim text : Str) (start r : Nat)
    (h : findEndOfMath delim text start = some r) :
    start ≤ r ∧ r + delim.length ≤ text.length ∧
      listSlice text r (r + delim.length) = delim := by
  rw [findEndOfMath] at h
  by_cases hs : start ≤ text.length
  · obtain ⟨h1, h2, h3⟩ := findEndOfMathGo_spec delim (text.drop start) start 0 r h
    have hlen : (text.drop start).length = text.length - start := by simp
    rw [hlen] at h2
    refine ⟨h1, by omega, ?_⟩
    have hdd : (text.drop start).drop (r - start) = text.drop r := by
      rw [List.drop_drop, Nat.add_sub_cancel' h1]
    rw [listSlice, show r + delim.length - r = delim.length by omega, ← hdd]
    exact h3
  · rw [List.drop_eq_nil_of_le (by omega)] at h
    rw [findEndOfMathGo.eq_1] at h
    exact absurd h (by simp)

theorem rawConcat_cons (s : Segment) (rest : List Segment) :
    rawConcat (s :: rest) = s.raw ++ rawConcat rest := by
  simp [rawConcat]

theorem splitLoop_rawConcat (text leftDelim rightDelim : Str) (style : Mathstyle) :
    ∀ (fuel curr : Nat) (segs : List Segment), curr ≤ text.length →
      splitLoop text leftDelim rightDelim style fuel curr = some segs →
      rawConcat segs = text.drop curr := by
  intro fuel
  induction fuel with
  | zero =>
    intro curr segs _ h
    simp [splitLoop] at h
  | succ fuel ih =>
    intro curr segs hcurr h
    rw [splitLoop] at h
    cases hidx : indexOfFrom leftDelim text curr with
    | none =>
      simp only [hidx] at h
      injection h with h
      subst h
      simp [rawConcat, Segment.raw]
    | some l =>
      simp only [hidx] at h
      have hcl : curr ≤ l := indexOfFrom_ge _ _ _ _ hcurr hidx
      cases hf : findEndOfMath rightDelim text (l + leftDelim.length) with
      | none =>
        simp only [hf] at h
        injection h with h
        subst h
        rw [rawConcat_cons, rawConcat_cons]
        simp only [Segment.raw, rawConcat, List.map_nil, List.flatten_nil, List.append_nil]
        exact listSlice_append_drop text curr l hcl
      | some r =>
        simp only [hf] at h
        obtain ⟨hge, hbound, _⟩ := findEndOfMath_spec _ _ _ _ hf
        cases hrec : splitLoop text leftDelim rightDelim style fuel (r + rightDelim.length) with
        | none => simp only [hrec, Option.map_none'] at h; exact absurd h (by simp)
        | some rest =>
          simp only [hrec, Option.map_some'] at h
          injection h with h
          subst h
          have hrc := ih (r + rightDelim.length) rest (by omega) hrec
          rw [rawConcat_cons, rawConcat_cons, hrc]
          simp only [Segment.raw]
          rw [listSlice_append_drop text l (r + rightDelim.length) (by omega),
            listSlice_append_drop text curr l hcl]

theorem splitLoop_isSome (text leftDelim rightDelim : Str) (style : Mathstyle)
    (hne : leftDelim ≠ []) :
    ∀ (fuel curr : Nat), curr ≤ text.length → text.length + 1 ≤ fuel + curr →
      (splitLoop text leftDelim rightDelim style fuel curr).isSome := by
  intro fuel
  induction fuel with
  | zero => intro curr h1 h2; omega
  | succ fuel ih =>
    intro curr h1 h2
    rw [splitLoop]
    cases hidx : indexOfFrom leftDelim text curr with
    | none => simp [hidx]
    | some l =>
      cases hf : findEndOfMath rightDelim text (l + leftDelim.length) with
      | none => simp [hidx, hf]
      | some r =>
        have hcl : curr ≤ l := indexOfFrom_ge _ _ _ _ h1 hidx
        obtain ⟨hge, hbound, _⟩ := findEndOfMath_spec _ _ _ _ hf
        have hll : 1 ≤ leftDelim.length := List.length_pos.mpr hne
        have hs := ih (r + rightDelim.length) (by omega) (by omega)
        obtain ⟨v, hv⟩ := Option.isSome_iff_exists.mp hs
        simp [hidx, hf, hv]

theorem splitTextRun_rawConcat (text leftDelim rightDelim : Str) (style : Mathstyle)
    (segs : List Segment) (h : splitTextRun text leftDelim rightDelim style = some segs) :
    rawConcat segs = text := by
  have := splitLoop_rawConcat text leftDelim rightDelim style (text.length + 1) 0 segs
    (by omega) h
  simpa using this

theorem splitTextRun_isSome (text leftDelim rightDelim : Str) (style : Mathstyle)
    (hne : leftDelim ≠ []) :
    (splitTextRun text leftDelim rightDelim style).isSome :=
  splitLoop_isSome text leftDelim rightDelim style hne (text.length + 1) 0
    (by omega) (by omega)

theorem splitAtDelimiters_spec (leftDelim rightDelim : Str) (style : Mathstyle)
    (hne : leftDelim ≠ []) :
    ∀ data : List Segment,
      ∃ out, splitAtDelimiters data leftDelim rightDelim style = some out ∧
        rawConcat out = rawConcat data := by
  intro data
  induction data with
  | nil => exact ⟨[], rfl, rfl⟩
  | cons seg rest ih =>
    obtain ⟨out, hout, hrc⟩ := ih
    cases seg with
    | text t =>
      obtain ⟨h, hh⟩ := Option.isSome_iff_exists.mp
        (splitTextRun_isSome t leftDelim rightDelim style hne)
      refine ⟨h ++ out, ?_, ?_⟩
      · rw [splitAtDelimiters]
        simp only [hh, hout]
      · rw [rawConcat_append, rawConcat_cons]
        simp only [Segment.raw]
        rw [splitTextRun_rawConcat _ _ _ _ _ hh, hrc]
    | math d rawd ms =>
      refine ⟨.math d rawd ms :: out, ?_, ?_⟩
      · rw [splitAtDelimiters]
        simp [hout]
        intro t ht
        exact absurd ht (by simp)
      · rw [rawConcat_cons, rawConcat_cons, hrc]

theorem runPasses_spec (style : Mathstyle) :
    ∀ (ps : List (Str × Str)), (∀ p ∈ ps, p.1 ≠ []) →
      ∀ data, ∃ out, runPasses style ps data = some out ∧
        rawConcat out = rawConcat data := by
  intro ps
  induction ps with
  | nil => intro _ data; exact ⟨data, rfl, rfl⟩
  | cons p ps ih =>
    intro hne data
    obtain ⟨d, hd, hrc⟩ := splitAtDelimiters_spec p.1 p.2 style (hne p (by simp)) data
    obtain ⟨out, hout, hrc2⟩ := ih (fun q hq => hne q (by simp [hq])) d
    refine ⟨out, ?_, by rw [hrc2, hrc]⟩
    rw [runPasses]
    simp only [hd]
    exact hout

theorem scanSeq_head (c : Char) (rest : Str) (index : Nat) (b : Int) :
    ∃ t, scanSeq (c :: rest) index b = (index, b) :: t := by
  cases rest with
  | nil =>
    rw [scanSeq.eq_def]
    dsimp only
    split_ifs <;> exact ⟨_, rfl⟩
  | cons d rest2 =>
    rw [scanSeq.eq_def]
    dsimp only
    split_ifs <;> exact ⟨_, rfl⟩

theorem scanPred_head (delimiter text : Str) (index : Nat) (b : Int) (c : Char) (rest : Str)
    (hinv : text.drop index = c :: rest) :
    scanPred delimiter text (index, b) =
      decide (b ≤ 0 ∧ (c :: rest).take delimiter.length = delimiter) := by
  have hsl : listSlice text index (index + delimiter.length) =
      (c :: rest).take delimiter.length := by
    rw [listSlice, show index + delimiter.length - index = delimiter.length by omega, hinv]
  rw [scanPred, hsl]

theorem findEndOfMathGo_eq_scan (delimiter text : Str) (suffix : Str) (index : Nat) (b : Int) :
    text.drop index = suffix →
    findEndOfMathGo delimiter suffix index b =
      ((scanSeq suffix index b).find? (scanPred delimiter text)).map Prod.fst := by
  induction suffix, index, b using findEndOfMathGo.induct delimiter with
  | case1 index b =>
    intro _
    simp [findEndOfMathGo, scanSeq]
  | case2 c rest index b hcond =>
    intro hinv
    obtain ⟨t, ht⟩ := scanSeq_head c rest index b
    rw [findEndOfMathGo.eq_def]
    simp only [if_pos hcond]
    rw [ht, List.find?_cons_of_pos, Option.map_some']
    rw [scanPred_head delimiter text index b c rest hinv]
    exact decide_eq_true hcond
  | case3 index b hcond =>
    intro hinv
    obtain ⟨t, ht⟩ := scanSeq_head '\\' [] index b
    rw [findEndOfMathGo.eq_def]
    simp only [if_neg hcond]
    have ht' : scanSeq ['\\'] index b = [(index, b)] := by
      rw [scanSeq.eq_def]; simp
    rw [ht', List.find?_cons_of_neg]
    · simp
    · rw [scanPred_head delimiter text index b '\\' [] hinv]
      simpa using hcond
  | case4 index b head rest2 hcond ih =>
    intro hinv
    have hnext : text.drop (index + 2) = rest2 := by
      have : text.drop (index + 2) = (text.drop index).drop 2 := by
        rw [List.drop_drop]
      rw [this, hinv]
      rfl
    have ih' := ih hnext
    rw [findEndOfMathGo.eq_def]
    simp only [if_neg hcond]
    have ht' : scanSeq ('\\' :: head :: rest2) index b =
        (index, b) :: scanSeq rest2 (index + 2) b := by
      rw [scanSeq.eq_def]; simp
    rw [ht', List.find?_cons_of_neg]
    · simpa using ih'
    · rw [scanPred_head delimiter text index b '\\' (head :: rest2) hinv]
      simpa using hcond
  | case5 rest index b hcond hne ih =>
    intro hinv
    have hnext : text.drop (index + 1) = rest := by
      have : text.drop (index + 1) = (text.drop index).drop 1 := by
        rw [List.drop_drop]
      rw [this, hinv]
      rfl
    have ih' := ih hnext
    rw [findEndOfMathGo.eq_def]
    simp only [if_neg hcond]
    have ht' : scanSeq ('{' :: rest) index b =
        (index, b) :: scanSeq rest (index + 1) (b + 1) := by
      rw [scanSeq.eq_def]
      cases rest <;> simp
    rw [ht', List.find?_cons_of_neg]
    · simpa using ih'
    · rw [scanPred_head delimiter text index b '{' rest hinv]
      simpa using hcond
  | case6 rest index b hcond hne hne2 ih =>
    intro hinv
    have hnext : text.drop (index + 1) = rest := by
      have : text.drop (index + 1) = (text.drop index).drop 1 := by
        rw [List.drop_drop]
      rw [this, hinv]
      rfl
    have ih' := ih hnext
    rw [findEndOfMathGo.eq_def]
    simp only [if_neg hcond]
    have ht' : scanSeq ('}' :: rest) index b =
        (index, b) :: scanSeq rest (index + 1) (b - 1) := by
      rw [scanSeq.eq_def]
      cases rest <;> simp
    rw [ht', List.find?_cons_of_neg]
    · simpa using ih'
    · rw [scanPred_head delimiter text index b '}' rest hinv]
      simpa using hcond
  | case7 c rest index b hcond hne hne2 hne3 ih =>
    intro hinv
    have hnext : text.drop (index + 1) = rest := by
      have : text.drop (index + 1) = (text.drop index).drop 1 := by
        rw [List.drop_drop]
      rw [this, hinv]
      rfl
    have ih' := ih hnext
    rw [findEndOfMathGo.eq_def]
    simp only [if_neg hcond, if_neg hne, if_neg hne2, if_neg hne3]
    have ht' : scanSeq (c :: rest) index b =
        (index, b) :: scanSeq rest (index + 1) b := by
      rw [scanSeq.eq_def]
      cases rest <;> simp [hne, hne2, hne3]
    rw [ht', List.find?_cons_of_neg]
    · simpa using ih'
    · rw [scanPred_head delimiter text index b c rest hinv]
      simpa using hcond

/-- C1: Round-trip — for every input text and every delimiter configuration
(whose delimiter pairs are non-empty, as the data model requires),
`splitWithDelimiters` completes, and concatenating, in order, the raw field
of every segment it produces (`rawData` for math segments, `data` for text
segments, across all inline and display passes) equals the original input
text exactly. -/
theorem splitWithDelimiters_roundTrip (text : Str) (delimiters : Delimiters)
    (hin : ∀ p ∈ delimiters.inline, p.1 ≠ [] ∧ p.2 ≠ [])
    (hdis : ∀ p ∈ delimiters.display, p.1 ≠ [] ∧ p.2 ≠ []) :
    ∃ segs, splitWithDelimiters text delimiters = some segs ∧ rawConcat segs = text := by
  obtain ⟨d, hd, hrc⟩ := runPasses_spec .textstyle delimiters.inline
    (fun p hp => (hin p hp).1) [.text text]
  obtain ⟨out, hout, hrc2⟩ := runPasses_spec .displaystyle delimiters.display
    (fun p hp => (hdis p hp).1) d
  refine ⟨out, ?_, ?_⟩
  · rw [splitWithDelimiters]
    simp only [hd]
    exact hout
  · rw [hrc2, hrc]
    simp [rawConcat, Segment.raw]

theorem splitWithDelimiters_roundTrip_witness :
    (∀ p ∈ defaultTeX.delimiters.inline, p.1 ≠ [] ∧ p.2 ≠ []) ∧
    (∀ p ∈ defaultTeX.delimiters.display, p.1 ≠ [] ∧ p.2 ≠ []) ∧
    ∃ segs,
      splitWithDelimiters "a \\( x \\) b $$ y $$ {c}".toList defaultTeX.delimiters = some segs ∧
      rawConcat segs = "a \\( x \\) b $$ y $$ {c}".toList :=
  ⟨by decide, by decide,
    splitWithDelimiters_roundTrip _ defaultTeX.delimiters (by decide) (by decide)⟩

/-- C3: `findEndOfMath` returns exactly the first position of the scan trace
(scanning character by character from the start offset, where a backslash
consumes and skips the immediately following character, `{` increments the
brace depth and `}` decrements it) whose depth is `≤ 0` and at which the
right-delimiter token occurs, and "not found" (`none`, modelling `-1`) when
no such position exists; in particular it returns `none` when the
right-delimiter token occurs only inside an unbalanced open brace group
with no matching close (e.g. `")"` in `"\x7b ) x"`). -/
theorem findEndOfMath_contract :
    (∀ (delimiter text : Str) (startIndex : Nat),
        findEndOfMath delimiter text startIndex =
          ((scanSeq (text.drop startIndex) startIndex 0).find?
             (scanPred delimiter text)).map Prod.fst) ∧
    findEndOfMath ")".toList "\x7b ) x".toList 0 = none := by
  refine ⟨?_, by decide⟩
  intro delimiter text startIndex
  rw [findEndOfMath]
  exact findEndOfMathGo_eq_scan delimiter text _ startIndex 0 rfl

/-- C4 counterexample: on input `"a \( x b"` with the inline pair
`("\(", "\)")`, the segmenter does not yield `[Text "a ", Text " x b"]` as
the claim states — the trailing text segment keeps the unmatched left
delimiter (that output would drop the two characters `\(`). -/
theorem splitWithDelimiters_unmatchedLeft_counterexample :
    splitWithDelimiters "a \\( x b".toList ⟨[("\\(".toList, "\\)".toList)], []⟩ ≠
      some [Segment.text "a ".toList, Segment.text " x b".toList] := by
  decide

/-- C4 amended: on input `"a \( x b"` (no closing `\)`) with the inline pair
`("\(", "\)")`, the segmenter yields the flushed prefix text segment `"a "`
followed by a single trailing text segment `"\( x b"` running from the
unmatched left delimiter to the end of the input; no math segment is
emitted, the loop completes (no exception), and no characters are dropped
(the raw concatenation of the two segments is the whole input). -/
theorem splitWithDelimiters_unmatchedLeft :
    splitWithDelimiters "a \\( x b".toList ⟨[("\\(".toList, "\\)".toList)], []⟩ =
      some [Segment.text "a ".toList, Segment.text "\\( x b".toList] ∧
    rawConcat [Segment.text "a ".toList, Segment.text "\\( x b".toList] =
      "a \\( x b".toList := by
  exact ⟨by decide, by decide⟩

/-- The loop of `splitAtDelimiters` never finishes from position `curr`:
every fuel bound is exhausted. -/
def splitLoopDiverges (text leftDelim rightDelim : Str) (style : Mathstyle) (curr : Nat) : Prop :=
  ∀ fuel, splitLoop text leftDelim rightDelim style fuel curr = none

/-- The resolved options corresponding to `defaultOptions`, with the two
default class patterns compiled as literal substring tests. -/
def defaultResolved : ResolvedOptions :=
  { skipTags := defaultSkipTags
    ignoreClassPattern := literalPattern "tex2jax_ignore".toList
    processClassPattern := literalPattern "tex2jax_process".toList
    TeX := defaultTeX }

/-- A document whose body holds the single text run `"x"`. -/
def xBodyDoc : Document :=
  ⟨.element "body".toList [] [.text "x".toList], fun _ => none⟩

/-- Caller options overriding `TeX` with an empty-empty inline delimiter
pair (an invalid pair per the specification's data model). -/
def emptyPairOptions : CallerOptions :=
  ⟨none, none, none, some ⟨false, true, ⟨[([], [])], []⟩⟩⟩

theorem splitWithDelimiters_isSome (delimiters : Delimiters)
    (hin : ∀ p ∈ delimiters.inline, p.1 ≠ []) (hdis : ∀ p ∈ delimiters.display, p.1 ≠ []) :
    ∀ text : Str, (splitWithDelimiters text delimiters).isSome := by
  intro text
  obtain ⟨d, hd, _⟩ := runPasses_spec .textstyle delimiters.inline hin [.text text]
  obtain ⟨out, hout, _⟩ := runPasses_spec .displaystyle delimiters.display hdis d
  rw [splitWithDelimiters]
  simp [hd, hout]

theorem scanText_isSome (options : ResolvedOptions) (ltm : Str → Mathstyle → Option Str)
    (hin : ∀ p ∈ options.TeX.delimiters.inline, p.1 ≠ [])
    (hdis : ∀ p ∈ options.TeX.delimiters.display, p.1 ≠ []) :
    ∀ text : Str, (scanText text options ltm).isSome := by
  intro text
  rw [scanText]
  by_cases henv : (options.TeX.processEnvironments && matchesEnvStart text) = true
  · rw [if_pos henv]
    cases ltm text .displaystyle <;> simp
  · rw [if_neg henv]
    obtain ⟨segs, hsegs⟩ := Option.isSome_iff_exists.mp
      (splitWithDelimiters_isSome options.TeX.delimiters hin hdis text)
    simp [hsegs]

theorem scanChildren_isSome_aux (options : ResolvedOptions) (ltm : Str → Mathstyle → Option Str)
    (hst : ∀ text : Str, (scanText text options ltm).isSome) :
    ∀ (n : Nat) (children : List DomNode), sizeOf children ≤ n →
      (scanChildren options ltm children).isSome := by
  intro n
  induction n using Nat.strong_induction_on with
  | _ n ih =>
    intro children hsize
    cases children with
    | nil => simp [scanChildren]
    | cons c rest =>
      have hltrest : sizeOf rest < n := by
        simp only [List.cons.sizeOf_spec] at hsize
        have hc : 0 < sizeOf c := by cases c <;> simp
        omega
      obtain ⟨tail, htail⟩ := Option.isSome_iff_exists.mp
        (ih (sizeOf rest) hltrest rest (le_refl _))
      cases c with
      | text t =>
        obtain ⟨frag, hfrag⟩ := Option.isSome_iff_exists.mp (hst t)
        rw [scanChildren]
        simp [hfrag, htail]
      | element tag cls ch =>
        have hltch : sizeOf ch < n := by
          simp only [List.cons.sizeOf_spec, DomNode.element.sizeOf_spec] at hsize
          omega
        obtain ⟨ch2, hch⟩ := Option.isSome_iff_exists.mp
          (ih (sizeOf ch) hltch ch (le_refl _))
        rw [scanChildren]
        by_cases hsr : shouldRender options tag cls = true
        · simp [hsr, hch, htail]
        · simp at hsr
          simp [hsr, htail]
      | other =>
        rw [scanChildren]
        simp [htail]

theorem scanChildren_isSome (options : ResolvedOptions) (ltm : Str → Mathstyle → Option Str)
    (hst : ∀ text : Str, (scanText text options ltm).isSome) :
    ∀ children : List DomNode, (scanChildren options ltm children).isSome :=
  fun children => scanChildren_isSome_aux options ltm hst (sizeOf children) children (le_refl _)

/-- C6 amended: for every configuration whose delimiter pairs are all
non-empty (as the data model requires — the code's normalization itself
performs no such check) and every finite input tree, the traversal runs to
completion: the segmenter loop terminates for every such delimiter pair
and every input text, and the recursive descent over the children
completes. -/
theorem traversal_termination (options : ResolvedOptions) (ltm : Str → Mathstyle → Option Str)
    (hin : ∀ p ∈ options.TeX.delimiters.inline, p.1 ≠ [] ∧ p.2 ≠ [])
    (hdis : ∀ p ∈ options.TeX.delimiters.display, p.1 ≠ [] ∧ p.2 ≠ []) :
    (∀ text : Str, (splitWithDelimiters text options.TeX.delimiters).isSome) ∧
    (∀ children : List DomNode, (scanChildren options ltm children).isSome) := by
  have hin1 : ∀ p ∈ options.TeX.delimiters.inline, p.1 ≠ [] := fun p hp => (hin p hp).1
  have hdis1 : ∀ p ∈ options.TeX.delimiters.display, p.1 ≠ [] := fun p hp => (hdis p hp).1
  exact ⟨splitWithDelimiters_isSome options.TeX.delimiters hin1 hdis1,
    scanChildren_isSome options ltm (scanText_isSome options ltm hin1 hdis1)⟩

theorem traversal_termination_witness :
    ((∀ p ∈ defaultResolved.TeX.delimiters.inline, p.1 ≠ [] ∧ p.2 ≠ []) ∧
     (∀ p ∈ defaultResolved.TeX.delimiters.display, p.1 ≠ [] ∧ p.2 ≠ [])) ∧
    (scanChildren defaultResolved (fun s _ => some s)
       [.text "a \\( x \\) b".toList, .element "pre".toList [] [.text "$$ z $$".toList],
        .other]).isSome :=
  ⟨⟨by decide, by decide⟩,
    (traversal_termination defaultResolved (fun s _ => some s) (by decide) (by decide)).2 _⟩

/-- C6 counterexample: with the inline delimiter pair `("", "")` — which
configuration normalization accepts — the segmenter loop of
`splitAtDelimiters` never terminates on the text `"x"` (every fuel bound is
exhausted), and the traversal over a tree holding that one text run does
not complete. -/
theorem traversal_divergence_counterexample :
    splitLoopDiverges "x".toList [] [] Mathstyle.textstyle 0 ∧
    scanChildren
      ⟨defaultSkipTags, literalPattern "tex2jax_ignore".toList,
       literalPattern "tex2jax_process".toList, ⟨false, true, ⟨[([], [])], []⟩⟩⟩
      (fun s _ => some s) [.text "x".toList] = none := by
  constructor
  · intro fuel
    induction fuel with
    | zero => rfl
    | succ fuel ih =>
      have hstep : splitLoop "x".toList [] [] Mathstyle.textstyle (fuel + 1) 0 =
          Option.map
            (fun rest => Segment.text [] :: Segment.math [] [] Mathstyle.textstyle :: rest)
            (splitLoop "x".toList [] [] Mathstyle.textstyle fuel 0) := rfl
      rw [hstep, ih]
      rfl
  · have hsc : scanText "x".toList
        ⟨defaultSkipTags, literalPattern "tex2jax_ignore".toList,
         literalPattern "tex2jax_process".toList, ⟨false, true, ⟨[([], [])], []⟩⟩⟩
        (fun s _ => some s) = none := rfl
    rw [scanChildren, hsc]

/-- C7: Render failure downgrade — on the non-environment path `scanText`
always succeeds (a renderer exception never escapes it), it produces
exactly one node per segment in order, and for every math segment on which
the renderer fails, the node at the corresponding position of the rewritten
sequence is a literal text node holding exactly the segment's
delimiter-inclusive `rawData`; every other position depends only on its own
segment, so processing of subsequent segments continues unaffected. -/
theorem scanText_render_failure_downgrade (options : ResolvedOptions)
    (ltm : Str → Mathstyle → Option Str) (text : Str) (segs : List Segment)
    (henv : (options.TeX.processEnvironments && matchesEnvStart text) = false)
    (hsplit : splitWithDelimiters text options.TeX.delimiters = some segs) :
    scanText text options ltm = some (segs.map (segToNode ltm)) ∧
    ∀ (i : Nat) (d raw : Str) (ms : Mathstyle),
      segs[i]? = some (Segment.math d raw ms) → ltm d ms = none →
      (segs.map (segToNode ltm))[i]? = some (DomNode.text raw) := by
  constructor
  · rw [scanText]
    simp [henv, hsplit]
  · intro i d raw ms hseg hfail
    rw [List.getElem?_map, hseg]
    simp [segToNode, hfail]

theorem scanText_render_failure_downgrade_witness :
    ((defaultResolved.TeX.processEnvironments && matchesEnvStart "$$ x $$".toList) = false) ∧
    (splitWithDelimiters "$$ x $$".toList defaultResolved.TeX.delimiters =
      some [Segment.text [], Segment.math " x ".toList "$$ x $$".toList .displaystyle,
        Segment.text []]) ∧
    (scanText "$$ x $$".toList defaultResolved (fun _ _ => none) =
      some ([Segment.text [], Segment.math " x ".toList "$$ x $$".toList .displaystyle,
        Segment.text []].map (segToNode (fun _ _ => none))) ∧
     ∀ (i : Nat) (d raw : Str) (ms : Mathstyle),
       [Segment.text [], Segment.math " x ".toList "$$ x $$".toList .displaystyle,
         Segment.text []][i]? = some (Segment.math d raw ms) →
       (fun _ _ => none : Str → Mathstyle → Option Str) d ms = none →
       ([Segment.text [], Segment.math " x ".toList "$$ x $$".toList .displaystyle,
         Segment.text []].map (segToNode (fun _ _ => none)))[i]? =
         some (DomNode.text raw)) :=
  ⟨by decide, by decide,
    scanText_render_failure_downgrade defaultResolved (fun _ _ => none) "$$ x $$".toList _
      (by decide) (by decide)⟩

/-- C9: spliced output is never re-scanned within one traversal — when the
child loop of `scanElement` meets a text child, the fragment produced for
it is placed into the output verbatim (its nodes, including literal-text
fallback nodes that still contain delimiter tokens, are not themselves
visited), and the loop continues with exactly the remaining original
siblings, in order. -/
theorem scanChildren_splice_not_rescanned (options : ResolvedOptions)
    (ltm : Str → Mathstyle → Option Str) (t : Str) (rest frag tail : List DomNode)
    (hfrag : scanText t options ltm = some frag)
    (htail : scanChildren options ltm rest = some tail) :
    scanChildren options ltm (DomNode.text t :: rest) = some (frag ++ tail) := by
  rw [scanChildren, hfrag, htail]

theorem scanChildren_splice_not_rescanned_witness :
    scanText "$$ x $$".toList defaultResolved (fun _ _ => none) =
      some [DomNode.text [], DomNode.text "$$ x $$".toList, DomNode.text []] ∧
    scanChildren defaultResolved (fun _ _ => none) [DomNode.text "y".toList] =
      some [DomNode.text "y".toList] ∧
    scanChildren defaultResolved (fun _ _ => none)
        (DomNode.text "$$ x $$".toList :: [DomNode.text "y".toList]) =
      some ([DomNode.text [], DomNode.text "$$ x $$".toList, DomNode.text []] ++
        [DomNode.text "y".toList]) := by
  have h0 : scanChildren defaultResolved (fun _ _ => none) [] = some [] := by
    rw [scanChildren]
  have h1 : scanChildren defaultResolved (fun _ _ => none) [DomNode.text "y".toList] =
      some [DomNode.text "y".toList] := by
    rw [scanChildren, h0]
    rfl
  have h2 : scanText "$$ x $$".toList defaultResolved (fun _ _ => none) =
      some [DomNode.text [], DomNode.text "$$ x $$".toList, DomNode.text []] := rfl
  exact ⟨h2, h1, scanChildren_splice_not_rescanned defaultResolved (fun _ _ => none)
    "$$ x $$".toList [DomNode.text "y".toList] _ _ h2 h1⟩

/-- C10: environment-path failure leaves an extra empty element — in the
`processEnvironments` special case the wrapper span is appended to the
fragment before the renderer is invoked, so when the renderer fails on such
a text run the replacement sequence is an empty span element followed by a
literal text node holding the original full text (two nodes, not the single
literal-text node of the per-segment downgrade path). -/
theorem scanText_env_failure (options : ResolvedOptions) (ltm : Str → Mathstyle → Option Str)
    (text : Str) (hp : options.TeX.processEnvironments = true)
    (hm : matchesEnvStart text = true) (hf : ltm text .displaystyle = none) :
    scanText text options ltm =
      some [DomNode.element spanTag [] [], DomNode.text text] := by
  rw [scanText]
  simp [hp, hm, hf]

theorem scanText_env_failure_witness :
    defaultResolved.TeX.processEnvironments = true ∧
    matchesEnvStart "\\begin{x} y".toList = true ∧
    ((fun _ _ => none : Str → Mathstyle → Option Str) "\\begin{x} y".toList .displaystyle
      = none) ∧
    scanText "\\begin{x} y".toList defaultResolved (fun _ _ => none) =
      some [DomNode.element spanTag [] [], DomNode.text "\\begin{x} y".toList] :=
  ⟨by decide, by decide, rfl,
    scanText_env_failure defaultResolved (fun _ _ => none) "\\begin{x} y".toList
      (by decide) (by decide) rfl⟩

/-- C8: skip/process policy — the child loop recurses into an
element-bearing child if and only if
`processClassPattern(class) OR NOT (tagName ∈ skipTags OR
ignoreClassPattern(class))` holds (`shouldRender`, with the tag compared in
lower case); when it is false the child is kept with its entire subtree
unmodified; and in particular an element whose tag is in `skipTags` but
whose class matches `processClassPattern` is recursed into. -/
theorem scanChildren_skip_policy (options : ResolvedOptions)
    (ltm : Str → Mathstyle → Option Str) (tag cls : Str) (ch rest : List DomNode) :
    (∀ out, scanChildren options ltm (DomNode.element tag cls ch :: rest) = some out →
      ∃ ch2 tail, out = DomNode.element tag cls ch2 :: tail ∧
        scanChildren options ltm rest = some tail ∧
        ((shouldRender options tag cls = true ∧ scanChildren options ltm ch = some ch2) ∨
         (shouldRender options tag cls = false ∧ ch2 = ch))) ∧
    (shouldRender options tag cls =
      (options.processClassPattern cls ||
        !(options.skipTags.contains (strToLower tag) || options.ignoreClassPattern cls))) ∧
    (options.skipTags.contains (strToLower tag) = true →
      options.processClassPattern cls = true → shouldRender options tag cls = true) := by
  refine ⟨?_, rfl, ?_⟩
  · intro out hout
    rw [scanChildren] at hout
    by_cases hsr : shouldRender options tag cls = true
    · rw [if_pos hsr] at hout
      cases hch : scanChildren options ltm ch with
      | none => simp [hch] at hout
      | some ch2 =>
        cases htail : scanChildren options ltm rest with
        | none => simp [hch, htail] at hout
        | some tail =>
          simp only [hch, htail] at hout
          injection hout with hout
          exact ⟨ch2, tail, hout.symm, rfl, .inl ⟨hsr, rfl⟩⟩
    · rw [if_neg hsr] at hout
      cases htail : scanChildren options ltm rest with
      | none => simp [htail] at hout
      | some tail =>
        simp only [htail] at hout
        injection hout with hout
        exact ⟨ch, tail, hout.symm, rfl, .inr ⟨by simpa using hsr, rfl⟩⟩
  · intro hskip hproc
    rw [shouldRender, hproc]
    rfl

theorem scanChildren_skip_policy_witness :
    defaultResolved.skipTags.contains (strToLower "pre".toList) = true ∧
    defaultResolved.processClassPattern "tex2jax_process".toList = true ∧
    shouldRender defaultResolved "pre".toList "tex2jax_process".toList = true ∧
    (∃ ch2 tail,
      ([DomNode.element "pre".toList "tex2jax_process".toList [DomNode.other]] : List DomNode) =
        DomNode.element "pre".toList "tex2jax_process".toList ch2 :: tail ∧
      scanChildren defaultResolved (fun _ _ => none) [] = some tail ∧
      ((shouldRender defaultResolved "pre".toList "tex2jax_process".toList = true ∧
        scanChildren defaultResolved (fun _ _ => none) [DomNode.other] = some ch2) ∨
       (shouldRender defaultResolved "pre".toList "tex2jax_process".toList = false ∧
        ch2 = [DomNode.other]))) := by
  have h0 : scanChildren defaultResolved (fun _ _ => none) [] = some [] := by
    rw [scanChildren]
  have h1 : scanChildren defaultResolved (fun _ _ => none) [DomNode.other] =
      some [DomNode.other] := by
    rw [scanChildren, h0]
  have hout : scanChildren defaultResolved (fun _ _ => none)
      (DomNode.element "pre".toList "tex2jax_process".toList [DomNode.other] :: []) =
      some [DomNode.element "pre".toList "tex2jax_process".toList [DomNode.other]] := by
    rw [scanChildren, if_pos (show shouldRender defaultResolved "pre".toList
      "tex2jax_process".toList = true by decide), h1, h0]
  refine ⟨by decide, by decide, ?_, ?_⟩
  · exact (scanChildren_skip_policy defaultResolved (fun _ _ => none) "pre".toList
      "tex2jax_process".toList [DomNode.other] []).2.2 (by decide) (by decide)
  · exact (scanChildren_skip_policy defaultResolved (fun _ _ => none) "pre".toList
      "tex2jax_process".toList [DomNode.other] []).1 _ hout

/-- A document whose body holds the single text run `"\(x\)"`, so that a
traversal of the body visibly rewrites it. -/
def mathBodyDoc : Document :=
  ⟨.element "body".toList [] [.text "\\(x\\)".toList], fun _ => none⟩

/-- C2 amended: when the root argument of `renderMathInElement` is absent
(or otherwise falsy, e.g. `null` or the empty string) the call returns
immediately as a no-op; when the root is a non-empty string identifier that
fails to resolve, the traversal proceeds on the document's top-level
content node (`document.body`) — the call behaves exactly as if
`document.body` had been passed. -/
theorem renderMathInElement_root_resolution (doc : Document) (options : CallerOptions)
    (compileRE : Str → Option (Str → Bool)) (ltm : Str → Mathstyle → Option Str) :
    renderMathInElement doc .absent options compileRE ltm = .noop ∧
    ∀ s : Str, s ≠ [] → doc.byId s = none →
      renderMathInElement doc (.ident s) options compileRE ltm =
        renderMathInElement doc (.node doc.body) options compileRE ltm := by
  refine ⟨rfl, ?_⟩
  intro s hs hid
  have h1 : resolveRoot doc (.ident s) = some doc.body := by
    simp only [resolveRoot, if_neg hs, hid]
  rw [renderMathInElement, h1]
  rfl

theorem renderMathInElement_root_resolution_witness :
    ("nosuch".toList ≠ ([] : Str)) ∧
    xBodyDoc.byId "nosuch".toList = none ∧
    renderMathInElement xBodyDoc .absent ⟨none, none, none, none⟩ literalCompile
      (fun s _ => some s) = .noop ∧
    renderMathInElement xBodyDoc (.ident "nosuch".toList) ⟨none, none, none, none⟩
        literalCompile (fun s _ => some s) =
      renderMathInElement xBodyDoc (.node xBodyDoc.body) ⟨none, none, none, none⟩
        literalCompile (fun s _ => some s) := by
  have h := renderMathInElement_root_resolution xBodyDoc ⟨none, none, none, none⟩
    literalCompile (fun s _ => some s)
  exact ⟨by decide, rfl, h.1, h.2 "nosuch".toList (by decide) rfl⟩

/-- C2 counterexample: with a body holding the text `"\(x\)"`, a renderer
that succeeds, and no node registered under any identifier: an absent root
yields a no-op (it does not default to the document body as the claim
states), and the string identifier `"nosuch"`, which fails to resolve,
yields a completed traversal whose rewritten body differs from the original
(nodes are modified, not a silent no-op as the claim states). -/
theorem renderMathInElement_root_resolution_counterexample :
    renderMathInElement mathBodyDoc .absent ⟨none, none, none, none⟩ literalCompile
      (fun s _ => some s) = .noop ∧
    renderMathInElement mathBodyDoc (.ident "nosuch".toList) ⟨none, none, none, none⟩
        literalCompile (fun s _ => some s) =
      .done (.element "body".toList []
        [.text [], .element spanTag [] [.text ['x']], .text []]) ∧
    DomNode.element "body".toList []
        [DomNode.text [], DomNode.element spanTag [] [DomNode.text ['x']], DomNode.text []] ≠
      mathBodyDoc.body := by
  refine ⟨rfl, ?_, by simp [mathBodyDoc]⟩
  have h1 : scanText "\\(x\\)".toList
      ⟨defaultSkipTags, literalPattern "tex2jax_ignore".toList,
       literalPattern "tex2jax_process".toList, defaultTeX⟩ (fun s _ => some s) =
      some [.text [], .element spanTag [] [.text ['x']], .text []] := rfl
  simp at h1
  simp [renderMathInElement, resolveRoot, mergeOptions, literalCompile, mathBodyDoc,
    scanElement, scanChildren, h1]

/-- C5 amended: the two class-name patterns are compiled once per top-level
invocation, after root resolution and before any traversal; when either
compilation fails the error is fatal and surfaced to the caller
(`configError`) and the traversal never starts (no node is visited or
modified).  Delimiter pairs, by contrast, are not validated at all:
an empty or otherwise invalid delimiter pair passes normalization
unexamined and the traversal begins (see the counterexample, where it then
never terminates). -/
theorem renderMathInElement_config_validation (doc : Document) (elem : RootArg)
    (options : CallerOptions) (compileRE : Str → Option (Str → Bool))
    (ltm : Str → Mathstyle → Option Str) (root : DomNode)
    (hroot : resolveRoot doc elem = some root)
    (hbad : compileRE (mergeOptions options).ignoreClass = none ∨
            compileRE (mergeOptions options).processClass = none) :
    renderMathInElement doc elem options compileRE ltm = .configError := by
  rw [renderMathInElement, hroot]
  cases hbad with
  | inl h =>
    cases hp : compileRE (mergeOptions options).processClass <;> simp [h, hp]
  | inr h =>
    cases hi : compileRE (mergeOptions options).ignoreClass <;> simp [h, hi]

theorem renderMathInElement_config_validation_witness :
    resolveRoot xBodyDoc (.node xBodyDoc.body) = some xBodyDoc.body ∧
    ((fun _ : Str => (none : Option (Str → Bool)))
        (mergeOptions ⟨none, none, none, none⟩).ignoreClass = none ∨
     (fun _ : Str => (none : Option (Str → Bool)))
        (mergeOptions ⟨none, none, none, none⟩).processClass = none) ∧
    renderMathInElement xBodyDoc (.node xBodyDoc.body) ⟨none, none, none, none⟩
      (fun _ => none) (fun s _ => some s) = .configError :=
  ⟨rfl, .inl rfl,
    renderMathInElement_config_validation xBodyDoc (.node xBodyDoc.body)
      ⟨none, none, none, none⟩ (fun _ => none) (fun s _ => some s) xBodyDoc.body
      rfl (.inl rfl)⟩

/-- C5 counterexample: the caller options carrying the empty-empty inline
delimiter pair — malformed per the specification's data model — pass
normalization without any error (the patterns compile, no
`ConfigurationError` is raised) and the traversal starts; the call ends in
`hung`, not `configError`: the code never validates delimiter pairs. -/
theorem renderMathInElement_config_validation_counterexample :
    renderMathInElement xBodyDoc (.node xBodyDoc.body) emptyPairOptions literalCompile
      (fun s _ => some s) = .hung ∧
    RenderOutcome.hung ≠ RenderOutcome.configError := by
  refine ⟨?_, by simp⟩
  have hsc : scanText "x".toList
      ⟨defaultSkipTags, literalPattern "tex2jax_ignore".toList,
       literalPattern "tex2jax_process".toList, ⟨false, true, ⟨[([], [])], []⟩⟩⟩
      (fun s _ => some s) = none := rfl
  simp at hsc
  simp [renderMathInElement, resolveRoot, mergeOptions, emptyPairOptions, literalCompile,
    xBodyDoc, scanElement, scanChildren, hsc]
